import Mathlib

/-!
Marathon: a shallow embedding of the workflow engine.

The development follows `constants.go`, `marathon.go` and `workflow.go`.

* Go strings are lists of characters (`Str`).
* A Go `map[string]V` is an association list with unique-key update (`mapSet`)
  and first-match lookup (`mapGet`); the order of the entries stands for one of
  the iteration orders Go may choose.
* The two package-level tables `Statuses` and `Context` are passed explicitly.
* The subprocess of a step is a parameter: what the runner finds in the output
  buffer at the successive iterations of its polling loop.
* Mutexes, goroutine scheduling and wall-clock time stamps are not modelled;
  a goroutine launched with `go` is recorded as a dispatched call.
-/

namespace Marathon

/-! ## Strings -/

/-- Go strings. -/
abbrev Str := List Char

/-- The function `strings.HasPrefix`. -/
def HasPrefix (s pre : Str) : Bool := pre.isPrefixOf s

/-- Worker of `Split`: scans the text from the left; `skip` counts the
characters of a separator just matched that are still to be dropped, `acc` is
the (reversed) piece being collected. -/
def splitGo (sep : Str) : Str → Nat → Str → List Str
  | [], _, acc => [acc.reverse]
  | _ :: cs, skip + 1, acc => splitGo sep cs skip acc
  | c :: cs, 0, acc =>
      if sep.isPrefixOf (c :: cs) then acc.reverse :: splitGo sep cs (sep.length - 1) []
      else splitGo sep cs 0 (c :: acc)

/-- The function `strings.Split` for a non-empty separator: the pieces between
the non-overlapping occurrences of `sep`, found from the left. -/
def Split (s sep : Str) : List Str := splitGo sep s 0 []

/-! ## constants.go -/

def STATE_STATUS_ERROR : Str := "error".toList
def STATE_STATUS_SUCCESS : Str := "success".toList
def STATE_STATUS_RUNNING : Str := "running".toList
def STATE_STATUS_WAITING : Str := "waiting".toList
def STATE_STATUS_NOT_STARTED : Str := "not_started".toList
def STATE_STATUS_KILLED : Str := "killed".toList

def TRIGGER_STATUS_SUCCESS : Str := "success".toList
def TRIGGER_STATUS_ERROR : Str := "error".toList
def TRIGGER_STATUS_ALWAYS : Str := "always".toList

def MARATHON_DIRECTORY : Str := "./marathon".toList

/-! ## The wire protocol literals of workflow.go -/

/-- The literal `"MARATHON_STATUS_CODE"`. -/
def MARATHON_STATUS_CODE : Str := "MARATHON_STATUS_CODE".toList

/-- The literal `"MARATHON_CONTEXT_SET"`. -/
def MARATHON_CONTEXT_SET : Str := "MARATHON_CONTEXT_SET".toList

/-- The literal `"|MARATHON_SEP|"`. -/
def MARATHON_SEP : Str := "|MARATHON_SEP|".toList

/-- The literal `"\n"`. -/
def newline : Str := ['\n']

/-! ## Go maps -/

/-- A Go `map[string]V`. -/
abbrev GoMap (V : Type) := List (Str × V)

/-- Map read `v, ok := m[k]`. -/
def mapGet {V : Type} : GoMap V → Str → Option V
  | [], _ => none
  | (k', v) :: rest, k => if k' = k then some v else mapGet rest k

/-- Map write `m[k] = v`. -/
def mapSet {V : Type} : GoMap V → Str → V → GoMap V
  | [], k, v => [(k, v)]
  | (k', v') :: rest, k, v =>
      if k' = k then (k, v) :: rest else (k', v') :: mapSet rest k v

/-- Modelled from the spec: the helper `Contains(list, item)` is called by
workflow.go but defined in no source file at hand; the spec reads its uses as
membership ("the parent's status is success or error", "X lists Y in its
success set"). -/
def Contains : List Str → Str → Bool
  | [], _ => false
  | a :: rest, x => if a = x then true else Contains rest x

/-! ## marathon.go -/

/-- The type `SyncMap` after `Init` (the mutex is not modelled). -/
structure SyncMap where
  mp : GoMap Str
deriving DecidableEq, Repr

def SyncMap.Init (_ : SyncMap) : SyncMap := ⟨[]⟩

def SyncMap.Set (s : SyncMap) (k v : Str) : SyncMap := ⟨mapSet s.mp k v⟩

def SyncMap.Get (s : SyncMap) (k : Str) : Str :=
  match mapGet s.mp k with
  | some val => val
  | none => []

/-- The type `SyncContext`; `mp = none` is the nil map of a table on which
`Init` was never called. -/
structure SyncContext where
  mp : Option (GoMap (GoMap Str))
deriving DecidableEq, Repr

def SyncContext.Init (_ : SyncContext) : SyncContext := ⟨some []⟩

def SyncContext.Set (s : SyncContext) (r k v : Str) : SyncContext :=
  let mp : GoMap (GoMap Str) :=
    match s.mp with
    | none => []
    | some m => m
  let mp : GoMap (GoMap Str) :=
    match mapGet mp r with
    | some _ => mp
    | none => mapSet mp r []
  match mapGet mp r with
  | some inner => ⟨some (mapSet mp r (mapSet inner k v))⟩
  | none => ⟨some mp⟩

def SyncContext.Get (s : SyncContext) (r k : Str) : Str :=
  match s.mp with
  | none => []
  | some mp =>
    match mapGet mp r with
    | some m =>
      match mapGet m k with
      | some val => val
      | none => []
    | none => []

/-! ## workflow.go: types -/

/-- The type `Step`; a nil `Parents` map is the empty map. -/
structure Step where
  Run : Str := []
  Name : Str := []
  Success : List Str := []
  Error : List Str := []
  Always : List Str := []
  Parents : GoMap Str := []
  Inputs : List Str := []
  Outputs : List Str := []
  LogLevel : Str := []
deriving DecidableEq, Repr

/-- The type `Workflow` (the unused resource fields are left out). -/
structure Workflow where
  Name : Str := []
  Steps : List Step := []
  stepMap : GoMap Step := []
deriving DecidableEq, Repr

/-- The type `State` (the time stamps `Started` and `Finished` are left out). -/
structure State where
  Step : Str
  Status : Str
  Output : Str
  RunID : Str
deriving DecidableEq, Repr

/-- Map read `w.stepMap[name]` without the `ok` flag: the zero `Step` when absent. -/
def Workflow.stepAt (w : Workflow) (name : Str) : Step :=
  match mapGet w.stepMap name with
  | some s => s
  | none => {}

/-! ## workflow.go: Step.Execute -/

/-- What a call does, seen from its caller. -/
inductive Outcome (α : Type) where
  /-- The call returns. -/
  | returned (a : α)
  /-- The call ends in a run-time panic (index out of range). -/
  | panicked
  /-- The call never returns. -/
  | diverges
deriving DecidableEq, Repr

/-- One call of the emission callback: step, run id, status, output. -/
abbrev Emission := Str × Str × Str × Str

/-- The variables of the polling loop of `Step.Execute`, with the status table
and the record of the calls of `emitFunc`. -/
structure Running where
  state : State
  contextToAdd : GoMap Str
  exited : Bool
  statuses : SyncMap
  emitted : List Emission
deriving DecidableEq, Repr

/-- Body of `for _, line := range lines`; `none` is the panic of `parts[1]` or
`parts[2]` on a short slice. -/
def classifyLine (r : Running) (line : Str) : Option Running :=
  if HasPrefix line MARATHON_STATUS_CODE then
    let parts := Split line MARATHON_SEP
    match parts.get? 1 with
    | none => none
    | some code =>
      some { r with
        state := { r.state with
          Status := if code = "0".toList then STATE_STATUS_SUCCESS else STATE_STATUS_ERROR }
        exited := true }
  else if HasPrefix line MARATHON_CONTEXT_SET then
    let parts := Split line MARATHON_SEP
    match parts.get? 1, parts.get? 2 with
    | some k, some v => some { r with contextToAdd := mapSet r.contextToAdd k v }
    | _, _ => none
  else
    some { r with state := { r.state with Output := r.state.Output ++ (line ++ newline) } }

/-- The loop `for _, line := range lines`. -/
def classifyLines : Running → List Str → Option Running
  | r, [] => some r
  | r, line :: rest =>
    match classifyLine r line with
    | none => none
    | some r1 => classifyLines r1 rest

/-- The method `State.Update`: call the emission callback (its error is only
logged) and record the status. -/
def State.Update (r : Running) : Running :=
  { r with
    emitted := r.emitted ++ [(r.state.Step, r.state.RunID, r.state.Status, r.state.Output)]
    statuses := r.statuses.Set r.state.Step r.state.Status }

/-- The polling loop `for { if len(stdout.String()) > 0 { ... } }`. The list
holds what the buffer contains at the successive iterations (an empty string
when nothing has arrived); once the list is used up the subprocess has
finished writing and the buffer stays empty, so the loop spins for ever. Each
snapshot is read and reset in one piece. -/
def pollLoop : List Str → Running → Outcome Running
  | [], _ => .diverges
  | buf :: later, r =>
    if buf.length > 0 then
      match classifyLines { r with exited := false } (Split buf newline) with
      | none => .panicked
      | some r1 =>
        let r2 := State.Update r1
        if r1.exited then .returned r2 else pollLoop later r2
    else pollLoop later r

/-- The outside world of a step execution. -/
structure Env where
  /-- The call `json.Marshal` on a run's context. -/
  marshal : GoMap Str → Except Str Str
  /-- The command `<dirPath>/step; echo "MARATHON_STATUS_CODE|MARATHON_SEP|$?"`
  started with `MARATHON_CONTEXT` set to the second argument: the successive
  contents of the output buffer. -/
  run : Str → Str → List Str

/-- Result of `Step.Execute`: the returned pair and the two tables. -/
structure ExecResult where
  state : State
  err : Option Str
  statuses : SyncMap
  context : SyncContext
  emitted : List Emission
deriving DecidableEq, Repr

/-- The loop `for k, v := range m { Context.Set(runID, k, v) }`. -/
def setAll (runID : Str) : GoMap Str → SyncContext → SyncContext
  | [], c => c
  | (k, v) :: rest, c => setAll runID rest (c.Set runID k v)

/-- The value of `contextJSON` in `Step.Execute`: `"{}"` unless the run has a
context, which is then marshalled. -/
def contextJSON (env : Env) (context : SyncContext) (runID : Str) : Except Str Str :=
  match context.mp with
  | none => .ok "\x7b\x7d".toList
  | some mp =>
    match mapGet mp runID with
    | some v => env.marshal v
    | none => .ok "\x7b\x7d".toList

/-- The method `Step.Execute`. -/
def Step.Execute (env : Env) (s : Step) (runID dirPath : Str)
    (statuses : SyncMap) (context : SyncContext) : Outcome ExecResult :=
  let statuses := statuses.Set s.Name STATE_STATUS_RUNNING
  let state : State :=
    { Step := s.Name, RunID := runID, Status := STATE_STATUS_RUNNING, Output := [] }
  match contextJSON env context runID with
  | .error e =>
    .returned { state := state, err := some e, statuses := statuses, context := context,
                emitted := [] }
  | .ok json =>
    match pollLoop (env.run dirPath json)
        { state := state, contextToAdd := [], exited := false, statuses := statuses,
          emitted := [] } with
    | .returned r =>
      .returned { state := r.state, err := none, statuses := r.statuses,
                  context := setAll runID r.contextToAdd context, emitted := r.emitted }
    | .panicked => .panicked
    | .diverges => .diverges

/-- Output of the generated helper `SetContext(k, v)`:
`fmt.Printf("MARATHON_CONTEXT_SET|MARATHON_SEP|%s|MARATHON_SEP|%s", k, v)`. -/
def SetContext (k v : Str) : Str :=
  MARATHON_CONTEXT_SET ++ MARATHON_SEP ++ k ++ MARATHON_SEP ++ v

/-- Output of the shell wrapper `echo "MARATHON_STATUS_CODE|MARATHON_SEP|$?"`
for the exit code `code`. -/
def statusEcho (code : Str) : Str :=
  MARATHON_STATUS_CODE ++ MARATHON_SEP ++ code ++ newline

/-! ## workflow.go: Trigger, autoTrigger, setChildStatus -/

/-- A call `go w.Trigger(runID, name, payload, emitFunc)`. -/
structure Dispatch where
  runID : Str
  name : Str
  payload : GoMap Str
deriving DecidableEq, Repr

/-- The method `Workflow.autoTrigger`: the goroutines launched, in order, and
the returned error. -/
def Workflow.autoTrigger (_w : Workflow) (runID : Str) (step : Step) (state : State) :
    List Dispatch × Option Str :=
  if state.Status = STATE_STATUS_SUCCESS then
    let d := step.Success.foldl (fun acc name => acc ++ [Dispatch.mk runID name []]) []
    let d := step.Always.foldl (fun acc name => acc ++ [Dispatch.mk runID name []]) d
    (d, none)
  else if state.Status = STATE_STATUS_ERROR then
    let d := step.Error.foldl (fun acc name => acc ++ [Dispatch.mk runID name []]) []
    let d := step.Always.foldl (fun acc name => acc ++ [Dispatch.mk runID name []]) d
    (d, none)
  else
    ([], some "unknown status in auto trigger".toList)

/-- One loop `for _, child := range ... ` of `setChildStatus`, the recursive
call being `recurse`. -/
def resetChildren (w : Workflow) (recurse : Step → SyncMap → Option SyncMap) :
    List Str → SyncMap → Option SyncMap
  | [], statuses => some statuses
  | child :: rest, statuses =>
    match recurse (w.stepAt child) (statuses.Set child STATE_STATUS_NOT_STARTED) with
    | none => none
    | some statuses1 => resetChildren w recurse rest statuses1

/-- The method `Workflow.setChildStatus`, with a bound on the depth of the
recursion: `none` when the bound is reached. -/
def Workflow.setChildStatus (w : Workflow) : Nat → Step → SyncMap → Option SyncMap
  | 0, _, _ => none
  | fuel + 1, s, statuses =>
    match resetChildren w (w.setChildStatus fuel) s.Success statuses with
    | none => none
    | some statuses1 =>
      match resetChildren w (w.setChildStatus fuel) s.Error statuses1 with
      | none => none
      | some statuses2 => resetChildren w (w.setChildStatus fuel) s.Always statuses2

/-- The loop over `step.Parents` in `Workflow.Trigger`: `false` when it leaves
through one of the two `return nil`. -/
def parentsReady (statuses : SyncMap) : GoMap Str → Bool
  | [] => true
  | (parent, expectedStatus) :: rest =>
    let parentStatus := statuses.Get parent
    if expectedStatus = TRIGGER_STATUS_ALWAYS then
      if !Contains [STATE_STATUS_SUCCESS, STATE_STATUS_ERROR] parentStatus then false
      else parentsReady statuses rest
    else if parentStatus ≠ expectedStatus then false
    else parentsReady statuses rest

/-- Result of `Workflow.Trigger`: the returned error, the two tables, the calls
of the emission callback and the goroutines launched. -/
structure TriggerResult where
  err : Option Str
  statuses : SyncMap
  context : SyncContext
  emitted : List Emission
  dispatched : List Dispatch
deriving DecidableEq, Repr

/-- What `Workflow.Trigger` does with the outcome of `step.Execute`: return its
error, or record the status, reset the descendants (recursion bounded by
`fuel`) and dispatch the children. -/
def Workflow.afterExecute (w : Workflow) (fuel : Nat) (runID : Str) (step : Step) :
    Outcome ExecResult → Outcome TriggerResult
  | .returned r =>
    match r.err with
    | some e =>
      .returned { err := some e, statuses := r.statuses, context := r.context,
                  emitted := r.emitted, dispatched := [] }
    | none =>
      match w.setChildStatus fuel step (r.statuses.Set step.Name r.state.Status) with
      | none => .diverges
      | some statuses2 =>
        .returned { err := none, statuses := statuses2, context := r.context,
                    emitted := r.emitted,
                    dispatched := (w.autoTrigger runID step r.state).1 }
  | .panicked => .panicked
  | .diverges => .diverges

/-- The method `Workflow.Trigger`; payload values are given as `%v` prints
them, `fuel` bounds the recursion of `setChildStatus`. -/
def Workflow.Trigger (env : Env) (fuel : Nat) (w : Workflow) (runID stepName : Str)
    (payload : GoMap Str) (statuses : SyncMap) (context : SyncContext) :
    Outcome TriggerResult :=
  match mapGet w.stepMap stepName with
  | none =>
    .returned { err := some ("step ".toList ++ stepName ++ " does not exist in workflow".toList),
                statuses := statuses, context := context, emitted := [], dispatched := [] }
  | some step =>
    if parentsReady statuses step.Parents then
      let statuses1 := statuses.Set stepName STATE_STATUS_NOT_STARTED
      let dirPath := MARATHON_DIRECTORY ++ "/".toList ++ step.Name
      let context1 := setAll runID payload context
      w.afterExecute fuel runID step (step.Execute env runID dirPath statuses1 context1)
    else
      .returned { err := none, statuses := statuses, context := context,
                  emitted := [], dispatched := [] }

/-! ## workflow.go: Setup -/

/-- The loop `for _, otherStep := range w.Steps` of `Setup`, for the step
named `name`. -/
def deriveParents (name : Str) : List Step → GoMap Str → GoMap Str
  | [], parents => parents
  | otherStep :: rest, parents =>
    if Contains otherStep.Success name then
      deriveParents name rest (mapSet parents otherStep.Name TRIGGER_STATUS_SUCCESS)
    else if Contains otherStep.Error name then
      deriveParents name rest (mapSet parents otherStep.Name TRIGGER_STATUS_ERROR)
    else if Contains otherStep.Always name then
      deriveParents name rest (mapSet parents otherStep.Name TRIGGER_STATUS_ALWAYS)
    else deriveParents name rest parents

/-- The first loop of `Setup`, over the steps still to visit. -/
def setupSteps (all : List Step) : List Step → GoMap Step → SyncMap → GoMap Step × SyncMap
  | [], stepMap, statuses => (stepMap, statuses)
  | step :: rest, stepMap, statuses =>
    let step1 := { step with Parents := deriveParents step.Name all step.Parents }
    setupSteps all rest (mapSet stepMap step.Name step1)
      (statuses.Set step.Name STATE_STATUS_NOT_STARTED)

/-- The table `logLevels`. -/
def logLevels : GoMap Str :=
  [("INFO".toList, "slog.LevelInfo".toList), ("DEBUG".toList, "slog.LevelDebug".toList),
   ("WARN".toList, "slog.LevelWarn".toList), ("ERROR".toList, "slog.LevelError".toList)]

/-- The second loop of `Setup`; `mkdir dirPath` stands for `os.MkdirAll` and
`build dirPath logLevel run` for writing, `goimports` and `go build`, each
giving its error if any. -/
def prepareSteps (mkdir : Str → Option Str) (build : Str → Str → Str → Option Str) :
    GoMap Step → Option Str
  | [] => none
  | (name, step) :: rest =>
    let dirPath := MARATHON_DIRECTORY ++ "/".toList ++ name
    match mkdir dirPath with
    | some e => some e
    | none =>
      let level : Except Str Str :=
        if step.LogLevel ≠ [] then
          match mapGet logLevels step.LogLevel with
          | some val => .ok val
          | none => .error ("unknown log level: ".toList ++ step.LogLevel)
        else .ok "slog.LevelInfo".toList
      match level with
      | .error e => some e
      | .ok logLevel =>
        match build dirPath logLevel step.Run with
        | some e => some e
        | none => prepareSteps mkdir build rest

/-- The method `Workflow.Setup`: the workflow with its step index, the status
table and the returned error. -/
def Workflow.Setup (mkdir : Str → Option Str) (build : Str → Str → Str → Option Str)
    (w : Workflow) (statuses : SyncMap) : Workflow × SyncMap × Option Str :=
  let (stepMap, statuses1) := setupSteps w.Steps w.Steps w.stepMap statuses
  ({ w with stepMap := stepMap }, statuses1, prepareSteps mkdir build stepMap)

/-! ## Notions used to state the properties -/

/-- Whether the entry `parent -> required` of a parent map is satisfied: for
"always" the parent's status is "success" or "error", otherwise the parent's
status equals the required one. -/
def Satisfied (statuses : SyncMap) (parent required : Str) : Prop :=
  if required = TRIGGER_STATUS_ALWAYS then
    statuses.Get parent = STATE_STATUS_SUCCESS ∨ statuses.Get parent = STATE_STATUS_ERROR
  else statuses.Get parent = required

/-- The first of the lists Success, Error, Always of `x` that contains `y`, as a
requirement. -/
def requirementOf (x : Step) (y : Str) : Option Str :=
  if Contains x.Success y then some TRIGGER_STATUS_SUCCESS
  else if Contains x.Error y then some TRIGGER_STATUS_ERROR
  else if Contains x.Always y then some TRIGGER_STATUS_ALWAYS
  else none

/-- A line that is no status line and, when it is a context-set line, carries a
key and a value field. -/
def OtherLine (line : Str) : Prop :=
  HasPrefix line MARATHON_STATUS_CODE = false ∧
  (HasPrefix line MARATHON_CONTEXT_SET = true → 3 ≤ (Split line MARATHON_SEP).length)

instance (line : Str) : Decidable (OtherLine line) := by
  unfold OtherLine
  exact inferInstance

/-- A line of ordinary output: no protocol marker in front, no newline inside. -/
def PlainLine (l : Str) : Prop :=
  HasPrefix l MARATHON_STATUS_CODE = false ∧ HasPrefix l MARATHON_CONTEXT_SET = false ∧
  ∀ ch ∈ l, ch ≠ '\n'

/-- The text of the given lines, each followed by a newline. -/
def writeLines : List Str → Str
  | [] => []
  | l :: rest => l ++ (newline ++ writeLines rest)

/-- The child names of a step, of the three kinds. -/
def Step.children (s : Step) : List Str := s.Success ++ s.Error ++ s.Always

/-- The child edges of a workflow: `b` is listed by the step indexed under `a`. -/
def Workflow.Child (w : Workflow) (a b : Str) : Prop := b ∈ (w.stepAt a).children

/-- The names reachable from step `s` through one or more child edges. -/
def Workflow.Descendant (w : Workflow) (s : Step) (n : Str) : Prop :=
  ∃ c ∈ s.children, Relation.ReflTransGen w.Child c n

/-- The child edges contain no cycle. -/
def Workflow.Acyclic (w : Workflow) : Prop := ∀ n, ¬ Relation.TransGen w.Child n n

/-- After a reset from the names `roots`: every name reachable from one of them
is "not_started", every other name keeps its status. -/
def ResetFrom (w : Workflow) (roots : List Str) (before after : SyncMap) : Prop :=
  ∀ n, ((∃ c ∈ roots, Relation.ReflTransGen w.Child c n) →
          after.Get n = STATE_STATUS_NOT_STARTED) ∧
       ((¬ ∃ c ∈ roots, Relation.ReflTransGen w.Child c n) → after.Get n = before.Get n)

/-- The reset from the step indexed under `n` ends, with the expected statuses. -/
def ResetsFrom (w : Workflow) (n : Str) : Prop :=
  ∀ statuses, ∃ fuel after,
    (∀ fuel1, fuel ≤ fuel1 → w.setChildStatus fuel1 (w.stepAt n) statuses = some after) ∧
    ResetFrom w (w.stepAt n).children statuses after

/-- There is a chain of `k` child edges that starts at the name `c`. -/
def Workflow.Chain (w : Workflow) : Nat → Str → Prop
  | 0, _ => True
  | k + 1, c => ∃ c1 ∈ (w.stepAt c).children, w.Chain k c1

/-! ## Concrete inputs -/

/-- A subprocess whose output reaches the buffer as the given snapshots. -/
def envOf (polls : List Str) : Env :=
  { marshal := fun _ => .ok "\x7b\x7d".toList, run := fun _ _ => polls }

/-- Step `a` of the program in test/main.go (bodies left out). -/
def stepA : Step := { Name := "a".toList, Success := ["b".toList], LogLevel := "DEBUG".toList }

/-- Step `b` of the program in test/main.go. -/
def stepB : Step := { Name := "b".toList, Error := ["c".toList], Always := ["d".toList] }

/-- Step `c` of the program in test/main.go. -/
def stepC : Step := { Name := "c".toList }

/-- Step `d` of the program in test/main.go. -/
def stepD : Step := { Name := "d".toList }

/-- The workflow of test/main.go. -/
def foobar : Workflow := { Name := "foobar".toList, Steps := [stepA, stepB, stepC, stepD] }

/-- The workflow of test/main.go after the first loop of `Setup`. -/
def foobarIndexed : Workflow :=
  { foobar with stepMap := (setupSteps foobar.Steps foobar.Steps [] ⟨[]⟩).1 }

/-- A step listing `y` both under Success and under Error. -/
def stepBoth : Step := { Name := "x".toList, Success := ["y".toList], Error := ["y".toList] }

/-- A workflow in which `x` lists `y` under two outcomes. -/
def twoLists : Workflow := { Steps := [stepBoth, { Name := "y".toList }] }

/-- A workflow in which `y` declares a parent that does not list it. -/
def declaredParent : Workflow :=
  { Steps := [{ Name := "x".toList },
              { Name := "y".toList, Parents := [("x".toList, "success".toList)] }] }

/-- A step that lists itself under Error, as a retry edge. -/
def retryStep : Step := { Name := "a".toList, Error := ["a".toList] }

/-- The workflow of the retrying step, indexed. -/
def retryWorkflow : Workflow :=
  { Steps := [retryStep], stepMap := [("a".toList, retryStep)] }

/-- Step `b` as indexed by `Setup`: its parent `a` must have succeeded. -/
def stepBIndexed : Step := { stepB with Parents := [("a".toList, "success".toList)] }

/-- A status table in which step `a` has succeeded. -/
def aSucceeded : SyncMap := ⟨[("a".toList, "success".toList)]⟩

/-- A state of step `b` that ended in error. -/
def bFailed : State :=
  { Step := "b".toList, Status := "error".toList, Output := [], RunID := "run".toList }

/-- The directory of step `a`. -/
def dirA : Str := "./marathon/a".toList

/-- Output of a step whose last statement is `SetContext("foo", "bar")` and that
exits with code 0: the helper's text, then the wrapper's status line. -/
def setContextLast : Str := SetContext "foo".toList "bar".toList ++ statusEcho "0".toList

/-- Output of a step that writes the line `ab` and exits with code 0. -/
def oneLine : Str := "ab\n".toList ++ statusEcho "0".toList

/-- The status table left by an earlier run of the workflow of test/main.go. -/
def priorRun : SyncMap :=
  ⟨[("a".toList, "success".toList), ("b".toList, "error".toList),
    ("c".toList, "success".toList), ("d".toList, "success".toList)]⟩

/-- Ranks of the names of the workflow of test/main.go, decreasing along edges. -/
def foobarRank (n : Str) : Nat :=
  if n = "a".toList then 2 else if n = "b".toList then 1 else 0

/-! # Properties -/

/-! ## Maps -/

theorem mapGet_mapSet_self {V : Type} (m : GoMap V) (k : Str) (v : V) :
    mapGet (mapSet m k v) k = some v := by
  induction m with
  | nil => simp [mapSet, mapGet]
  | cons e rest ih =>
    obtain ⟨k', v'⟩ := e
    by_cases h : k' = k
    · simp [mapSet, mapGet, h]
    · simp [mapSet, mapGet, h, ih]

theorem mapGet_mapSet_ne {V : Type} (m : GoMap V) (k k' : Str) (v : V) (hne : k' ≠ k) :
    mapGet (mapSet m k v) k' = mapGet m k' := by
  induction m with
  | nil => simp [mapSet, mapGet, Ne.symm hne]
  | cons e rest ih =>
    obtain ⟨k1, v1⟩ := e
    by_cases h : k1 = k
    · subst h
      simp [mapSet, mapGet, Ne.symm hne]
    · by_cases h2 : k1 = k'
      · subst h2
        simp [mapSet, mapGet, h]
      · simp [mapSet, mapGet, h, h2, ih]

theorem SyncMap.Get_Set_self (s : SyncMap) (k v : Str) : (s.Set k v).Get k = v := by
  simp [SyncMap.Get, SyncMap.Set, mapGet_mapSet_self]

theorem SyncMap.Get_Set_ne (s : SyncMap) (k k' v : Str) (hne : k' ≠ k) :
    (s.Set k v).Get k' = s.Get k' := by
  simp [SyncMap.Get, SyncMap.Set, mapGet_mapSet_ne _ _ _ _ hne]

theorem Contains_iff (l : List Str) (x : Str) : Contains l x = true ↔ x ∈ l := by
  induction l with
  | nil => simp [Contains]
  | cons a rest ih =>
    by_cases h : a = x
    · simp [Contains, h]
    · simp [Contains, h, ih, Ne.symm h]

/-- C7: reading a context value immediately after writing it, with the same run id
and key, returns exactly the value written, whatever the table (never initialised
or not) and whatever the three strings. -/
theorem SyncContext_Get_after_Set (s : SyncContext) (r k v : Str) :
    (s.Set r k v).Get r k = v := by
  unfold SyncContext.Set SyncContext.Get
  cases hmp : s.mp with
  | none => simp [mapGet, mapSet]
  | some m =>
    cases hr : mapGet m r with
    | none => simp [hr, mapGet_mapSet_self]
    | some inner => simp [hr, mapGet_mapSet_self]


theorem foldl_dispatch (runID : Str) (names : List Str) (init : List Dispatch) :
    names.foldl (fun acc name => acc ++ [Dispatch.mk runID name []]) init
      = init ++ names.map (fun name => Dispatch.mk runID name []) := by
  induction names generalizing init with
  | nil => simp
  | cons n rest ih => simp [ih]

/-- C2: the children dispatched by `autoTrigger`, each with an empty payload, are
the Success list followed by the Always list when the status is "success", the
Error list followed by the Always list when it is "error"; for any other status
nothing is dispatched and the error "unknown status in auto trigger" is returned. -/
theorem autoTrigger_children (w : Workflow) (runID : Str) (step : Step) (state : State) :
    (state.Status = STATE_STATUS_SUCCESS →
      w.autoTrigger runID step state
        = ((step.Success ++ step.Always).map (fun name => Dispatch.mk runID name []), none)) ∧
    (state.Status = STATE_STATUS_ERROR →
      w.autoTrigger runID step state
        = ((step.Error ++ step.Always).map (fun name => Dispatch.mk runID name []), none)) ∧
    (state.Status ≠ STATE_STATUS_SUCCESS → state.Status ≠ STATE_STATUS_ERROR →
      w.autoTrigger runID step state = ([], some "unknown status in auto trigger".toList)) := by
  refine ⟨fun h => ?_, fun h => ?_, fun h1 h2 => ?_⟩
  · simp [Workflow.autoTrigger, h, foldl_dispatch]
  · have hne : STATE_STATUS_ERROR ≠ STATE_STATUS_SUCCESS := by decide
    simp [Workflow.autoTrigger, h, hne, foldl_dispatch]
  · simp [Workflow.autoTrigger, h1, h2]

theorem parentsReady_iff (statuses : SyncMap) (parents : GoMap Str) :
    parentsReady statuses parents = true ↔
      ∀ parent required, (parent, required) ∈ parents → Satisfied statuses parent required := by
  induction parents with
  | nil => simp [parentsReady]
  | cons e rest ih =>
    obtain ⟨p, req⟩ := e
    have hc : ∀ x, Contains [STATE_STATUS_SUCCESS, STATE_STATUS_ERROR] x = true ↔
        (x = STATE_STATUS_SUCCESS ∨ x = STATE_STATUS_ERROR) := by
      intro x
      rw [Contains_iff]
      simp
    constructor
    · intro h parent required hmem
      rcases List.mem_cons.1 hmem with heq | hmem
      · obtain ⟨rfl, rfl⟩ := Prod.mk.inj heq
        unfold parentsReady at h
        unfold Satisfied
        by_cases ha : required = TRIGGER_STATUS_ALWAYS
        · simp only [ha, if_true] at h ⊢
          by_cases hcc : Contains [STATE_STATUS_SUCCESS, STATE_STATUS_ERROR] (statuses.Get parent) = true
          · exact (hc _).1 hcc
          · simp [hcc] at h
        · simp only [ha, if_false] at h ⊢
          by_contra hne
          simp [hne] at h
      · unfold parentsReady at h
        by_cases ha : req = TRIGGER_STATUS_ALWAYS
        · simp only [ha, if_true] at h
          by_cases hcc : Contains [STATE_STATUS_SUCCESS, STATE_STATUS_ERROR] (statuses.Get p) = true
          · simp only [hcc, Bool.not_true, if_false] at h
            exact ih.1 h parent required hmem
          · simp [hcc] at h
        · simp only [ha, if_false] at h
          by_cases hne : statuses.Get p = req
          · simp only [hne, ne_eq, not_true_eq_false, if_false] at h
            exact ih.1 h parent required hmem
          · simp [hne] at h
    · intro h
      have hhead := h p req (List.mem_cons_self _ _)
      have htail := ih.2 (fun parent required hmem => h parent required (List.mem_cons_of_mem _ hmem))
      unfold Satisfied at hhead
      unfold parentsReady
      by_cases ha : req = TRIGGER_STATUS_ALWAYS
      · simp only [ha, if_true] at hhead ⊢
        simp [(hc _).2 hhead, htail]
      · simp only [ha, if_false] at hhead ⊢
        simp [hhead, htail]

/-- A polling loop that returns has called the emission callback. -/
theorem pollLoop_emitted (polls : List Str) (r r1 : Running)
    (h : pollLoop polls r = .returned r1) : r1.emitted ≠ [] := by
  induction polls generalizing r with
  | nil => simp [pollLoop] at h
  | cons buf later ih =>
    rw [pollLoop] at h
    by_cases hlen : buf.length > 0
    · simp only [hlen, if_true] at h
      cases hcl : classifyLines { r with exited := false } (Split buf newline) with
      | none => simp [hcl] at h
      | some r2 =>
        simp only [hcl] at h
        by_cases hex : r2.exited = true
        · simp only [hex, if_true] at h
          have heq : State.Update r2 = r1 := by
            injection h
          rw [← heq]
          simp [State.Update]
        · simp only [hex, Bool.false_eq_true, if_false] at h
          exact ih _ h
    · simp only [hlen, if_false] at h
      exact ih _ h

/-- A call of `Step.Execute` that returns has failed to marshal the context or has
called the emission callback. -/
theorem Execute_trace (env : Env) (s : Step) (runID dirPath : Str) (statuses : SyncMap)
    (context : SyncContext) (res : ExecResult)
    (h : s.Execute env runID dirPath statuses context = .returned res) :
    res.err ≠ none ∨ res.emitted ≠ [] := by
  unfold Step.Execute at h
  cases hjson : contextJSON env context runID with
  | error e =>
    simp only [hjson] at h
    injection h with h
    left
    rw [← h]
    simp
  | ok json =>
    simp only [hjson] at h
    cases hloop : pollLoop (env.run dirPath json)
        { state := { Step := s.Name, RunID := runID, Status := STATE_STATUS_RUNNING,
                     Output := [] },
          contextToAdd := [], exited := false,
          statuses := statuses.Set s.Name STATE_STATUS_RUNNING, emitted := [] } with
    | returned r =>
      simp only [hloop] at h
      injection h with h
      right
      rw [← h]
      exact pollLoop_emitted _ _ _ hloop
    | panicked => simp [hloop] at h
    | diverges => simp [hloop] at h

theorem afterExecute_trace (w : Workflow) (fuel : Nat) (runID : Str) (step : Step)
    (o : Outcome ExecResult) (ho : ∀ r, o = .returned r → r.err ≠ none ∨ r.emitted ≠ [])
    (res : TriggerResult) (h : w.afterExecute fuel runID step o = .returned res) :
    res.err ≠ none ∨ res.emitted ≠ [] := by
  cases o with
  | returned r =>
    unfold Workflow.afterExecute at h
    cases herr : r.err with
    | some e =>
      simp only [herr] at h
      injection h with h
      left
      rw [← h]
      simp
    | none =>
      simp only [herr] at h
      cases hset : w.setChildStatus fuel step (r.statuses.Set step.Name r.state.Status) with
      | none => simp [hset] at h
      | some st =>
        simp only [hset] at h
        injection h with h
        right
        rw [← h]
        rcases ho r rfl with h1 | h1
        · exact absurd herr h1
        · exact h1
  | panicked => simp [Workflow.afterExecute] at h
  | diverges => simp [Workflow.afterExecute] at h

/-- C1: for a step present in the step index, `Trigger` goes on to execute it, that
is, its outcome is what follows from the call of `Step.Execute` on the step (status
table with the step "not_started", context with the payload), exactly when every
entry of its parent map is satisfied ("always": the parent's status is "success" or
"error"; otherwise: the parent's status equals the required one). Then a hanging
execution hangs the trigger, and an execution that returns has called the emission
callback and its state, context and emissions are those of the trigger, which
dispatches the children. When an entry is not satisfied, `Trigger` returns no
error, emits and dispatches nothing and leaves the status table and the context
table as they were. -/
theorem Trigger_proceeds_iff_parents_satisfied (env : Env) (fuel : Nat) (w : Workflow)
    (runID stepName : Str) (payload : GoMap Str) (statuses : SyncMap) (context : SyncContext)
    (step : Step) (hstep : mapGet w.stepMap stepName = some step) :
    (w.Trigger env fuel runID stepName payload statuses context
        = w.afterExecute fuel runID step
            (step.Execute env runID (MARATHON_DIRECTORY ++ "/".toList ++ step.Name)
              (statuses.Set stepName STATE_STATUS_NOT_STARTED) (setAll runID payload context)) ↔
      ∀ parent required, (parent, required) ∈ step.Parents →
        Satisfied statuses parent required) ∧
    ((∀ parent required, (parent, required) ∈ step.Parents →
        Satisfied statuses parent required) →
      (step.Execute env runID (MARATHON_DIRECTORY ++ "/".toList ++ step.Name)
          (statuses.Set stepName STATE_STATUS_NOT_STARTED) (setAll runID payload context)
          = .diverges →
        w.Trigger env fuel runID stepName payload statuses context = .diverges) ∧
      (∀ r statuses2,
        step.Execute env runID (MARATHON_DIRECTORY ++ "/".toList ++ step.Name)
          (statuses.Set stepName STATE_STATUS_NOT_STARTED) (setAll runID payload context)
          = .returned r →
        r.err = none →
        w.setChildStatus fuel step (r.statuses.Set step.Name r.state.Status)
          = some statuses2 →
        r.emitted ≠ [] ∧
        w.Trigger env fuel runID stepName payload statuses context
          = .returned { err := none, statuses := statuses2, context := r.context,
                        emitted := r.emitted,
                        dispatched := (w.autoTrigger runID step r.state).1 })) ∧
    ((¬ ∀ parent required, (parent, required) ∈ step.Parents →
        Satisfied statuses parent required) →
      w.Trigger env fuel runID stepName payload statuses context
        = .returned { err := none, statuses := statuses, context := context,
                      emitted := [], dispatched := [] }) := by
  rw [← parentsReady_iff]
  unfold Workflow.Trigger
  simp only [hstep]
  by_cases hready : parentsReady statuses step.Parents = true
  · simp only [hready, if_true, not_true_eq_false, false_implies, and_true, iff_true,
      true_implies, true_and]
    refine ⟨fun hdiv => ?_, fun r statuses2 hret herr hset => ⟨?_, ?_⟩⟩
    · rw [hdiv]
      rfl
    · rcases Execute_trace _ _ _ _ _ _ r hret with h | h
      · exact absurd herr h
      · exact h
    · rw [hret]
      simp only [Workflow.afterExecute, herr, hset]
  · simp only [hready, Bool.false_eq_true, if_false, false_implies, true_and, not_false_eq_true,
      true_implies, and_true, iff_false]
    intro heq
    rcases afterExecute_trace w fuel runID step _ (fun r hr => Execute_trace _ _ _ _ _ _ r hr)
      _ heq.symm with h | h
    · exact h rfl
    · exact h rfl

theorem deriveParents_cons (y : Str) (x : Step) (rest : List Step) (parents : GoMap Str) :
    deriveParents y (x :: rest) parents
      = deriveParents y rest
          (match requirementOf x y with
           | some r => mapSet parents x.Name r
           | none => parents) := by
  unfold requirementOf
  rw [deriveParents]
  by_cases h1 : Contains x.Success y = true
  · simp [h1]
  · by_cases h2 : Contains x.Error y = true
    · simp [h1, h2]
    · by_cases h3 : Contains x.Always y = true
      · simp [h1, h2, h3]
      · simp [h1, h2, h3]

theorem deriveParents_other (y n : Str) (steps : List Step) (parents : GoMap Str)
    (hn : n ∉ steps.map Step.Name) :
    mapGet (deriveParents y steps parents) n = mapGet parents n := by
  induction steps generalizing parents with
  | nil => simp [deriveParents]
  | cons x rest ih =>
    simp only [List.map_cons, List.mem_cons, not_or] at hn
    rw [deriveParents_cons, ih _ hn.2]
    cases requirementOf x y with
    | none => rfl
    | some r => exact mapGet_mapSet_ne _ _ _ _ hn.1

theorem deriveParents_entry (y : Str) (steps : List Step) (parents : GoMap Str)
    (hnodup : (steps.map Step.Name).Nodup) (x : Step) (hx : x ∈ steps) :
    mapGet (deriveParents y steps parents) x.Name
      = match requirementOf x y with
        | some r => some r
        | none => mapGet parents x.Name := by
  induction steps generalizing parents with
  | nil => simp at hx
  | cons z rest ih =>
    simp only [List.map_cons, List.nodup_cons] at hnodup
    rw [deriveParents_cons]
    rcases List.mem_cons.1 hx with rfl | hmem
    · rw [deriveParents_other _ _ _ _ hnodup.1]
      cases requirementOf x y with
      | none => rfl
      | some r => exact mapGet_mapSet_self _ _ _
    · have hne : x.Name ≠ z.Name := by
        intro heq
        exact hnodup.1 (heq ▸ List.mem_map_of_mem Step.Name hmem)
      rw [ih _ hnodup.2 hmem]
      cases requirementOf x y with
      | some r => rfl
      | none =>
        cases requirementOf z y with
        | none => rfl
        | some r => exact mapGet_mapSet_ne _ _ _ _ hne

theorem setupSteps_other (all steps : List Step) (stepMap : GoMap Step) (statuses : SyncMap)
    (n : Str) (hn : n ∉ steps.map Step.Name) :
    mapGet (setupSteps all steps stepMap statuses).1 n = mapGet stepMap n := by
  induction steps generalizing stepMap statuses with
  | nil => simp [setupSteps]
  | cons z rest ih =>
    simp only [List.map_cons, List.mem_cons, not_or] at hn
    rw [setupSteps, ih _ _ hn.2]
    exact mapGet_mapSet_ne _ _ _ _ hn.1

theorem setupSteps_entry (all steps : List Step) (stepMap : GoMap Step) (statuses : SyncMap)
    (hnodup : (steps.map Step.Name).Nodup) (y : Step) (hy : y ∈ steps) :
    mapGet (setupSteps all steps stepMap statuses).1 y.Name
      = some { y with Parents := deriveParents y.Name all y.Parents } := by
  induction steps generalizing stepMap statuses with
  | nil => simp at hy
  | cons z rest ih =>
    simp only [List.map_cons, List.nodup_cons] at hnodup
    rw [setupSteps]
    rcases List.mem_cons.1 hy with rfl | hmem
    · rw [setupSteps_other _ _ _ _ _ hnodup.1]
      exact mapGet_mapSet_self _ _ _
    · exact ih _ _ hnodup.2 hmem

theorem Setup_stepMap (mkdir : Str → Option Str) (build : Str → Str → Str → Option Str)
    (w : Workflow) (statuses : SyncMap) :
    (w.Setup mkdir build statuses).1.stepMap
      = (setupSteps w.Steps w.Steps w.stepMap statuses).1 := by
  simp [Workflow.Setup]

/-- C3 (amended): for a workflow whose steps have distinct names, after `Setup` the
indexed step `y` has, for every step `x`, the parent-map entry "success" when `x`
lists `y` in Success, else "error" when `x` lists it in Error, else "always" when
`x` lists it in Always, and otherwise the entry `y` declared for `x` before `Setup`
(none if it declared none); entries under names of no step are as declared. -/
theorem Setup_parent_entries (mkdir : Str → Option Str) (build : Str → Str → Str → Option Str)
    (w : Workflow) (statuses : SyncMap) (hnodup : (w.Steps.map Step.Name).Nodup)
    (y : Step) (hy : y ∈ w.Steps) :
    (∀ x, x ∈ w.Steps →
      mapGet ((w.Setup mkdir build statuses).1.stepAt y.Name).Parents x.Name
        = if Contains x.Success y.Name then some TRIGGER_STATUS_SUCCESS
          else if Contains x.Error y.Name then some TRIGGER_STATUS_ERROR
          else if Contains x.Always y.Name then some TRIGGER_STATUS_ALWAYS
          else mapGet y.Parents x.Name) ∧
    (∀ n, n ∉ w.Steps.map Step.Name →
      mapGet ((w.Setup mkdir build statuses).1.stepAt y.Name).Parents n
        = mapGet y.Parents n) := by
  have hidx : (w.Setup mkdir build statuses).1.stepAt y.Name
      = { y with Parents := deriveParents y.Name w.Steps y.Parents } := by
    unfold Workflow.stepAt
    rw [Setup_stepMap, setupSteps_entry _ _ _ _ hnodup y hy]
  rw [hidx]
  refine ⟨fun x hx => ?_, fun n hn => ?_⟩
  · show mapGet (deriveParents y.Name w.Steps y.Parents) x.Name = _
    rw [deriveParents_entry _ _ _ hnodup x hx]
    unfold requirementOf
    by_cases h1 : Contains x.Success y.Name = true
    · simp [h1]
    · by_cases h2 : Contains x.Error y.Name = true
      · simp [h1, h2]
      · by_cases h3 : Contains x.Always y.Name = true
        · simp [h1, h2, h3]
        · simp [h1, h2, h3]
  · exact deriveParents_other _ _ _ _ hn


/-! ## Splitting -/

theorem splitGo_no_sep (sep s acc : Str) (hs : ¬ List.IsInfix sep s) :
    splitGo sep s 0 acc = [acc.reverse ++ s] := by
  induction s generalizing acc with
  | nil => simp [splitGo]
  | cons c cs ih =>
    have hpre : sep.isPrefixOf (c :: cs) = false := by
      cases hp : sep.isPrefixOf (c :: cs) with
      | false => rfl
      | true => exact absurd (List.isPrefixOf_iff_prefix.1 hp).isInfix hs
    rw [splitGo, hpre]
    simp only [Bool.false_eq_true, if_false]
    rw [ih _ (fun h => hs (List.infix_cons h))]
    simp

theorem splitGo_skip (sep xs rest acc : Str) :
    splitGo sep (xs ++ rest) xs.length acc = splitGo sep rest 0 acc := by
  induction xs with
  | nil => simp
  | cons x xs ih => simpa [splitGo] using ih

theorem isPrefixOf_append_self (a b : Str) : a.isPrefixOf (a ++ b) = true := by
  induction a with
  | nil => simp [List.isPrefixOf]
  | cons x xs ih => simp [List.isPrefixOf, ih]

theorem splitGo_piece (h : Char) (t p rest acc : Str) (hp : ∀ ch ∈ p, ch ≠ h) :
    splitGo (h :: t) (p ++ ((h :: t) ++ rest)) 0 acc
      = (acc.reverse ++ p) :: splitGo (h :: t) rest 0 [] := by
  induction p generalizing acc with
  | nil =>
    have hpre : (h :: t).isPrefixOf (h :: (t ++ rest)) = true :=
      isPrefixOf_append_self (h :: t) rest
    simp only [List.nil_append, List.cons_append, List.append_nil]
    rw [splitGo, hpre]
    simp only [if_true, List.length_cons, Nat.add_sub_cancel]
    rw [splitGo_skip]
  | cons c cs ih =>
    have hc : c ≠ h := hp c (List.mem_cons_self _ _)
    have hpre : (h :: t).isPrefixOf (c :: (cs ++ ((h :: t) ++ rest))) = false := by
      simp [List.isPrefixOf, Ne.symm hc]
    rw [List.cons_append, splitGo, hpre]
    simp only [Bool.false_eq_true, if_false]
    rw [ih _ (fun ch hch => hp ch (List.mem_cons_of_mem _ hch))]
    simp

theorem Split_status_line (c : Str) (hc : ¬ List.IsInfix MARATHON_SEP c) :
    Split (MARATHON_STATUS_CODE ++ MARATHON_SEP ++ c) MARATHON_SEP
      = [MARATHON_STATUS_CODE, c] := by
  have hsep : MARATHON_SEP = '|' :: "MARATHON_SEP|".toList := by decide
  have hp : ∀ ch ∈ MARATHON_STATUS_CODE, ch ≠ '|' := by decide
  unfold Split
  rw [hsep] at hc
  rw [List.append_assoc, hsep, splitGo_piece _ _ _ _ _ hp, splitGo_no_sep _ _ _ hc]
  simp

theorem HasPrefix_append (a b : Str) : HasPrefix (a ++ b) a = true :=
  isPrefixOf_append_self a b

theorem classifyLine_status (r : Running) (c : Str) (hc : ¬ List.IsInfix MARATHON_SEP c) :
    classifyLine r (MARATHON_STATUS_CODE ++ MARATHON_SEP ++ c)
      = some { r with
          state := { r.state with
            Status := if c = "0".toList then STATE_STATUS_SUCCESS else STATE_STATUS_ERROR }
          exited := true } := by
  unfold classifyLine
  rw [List.append_assoc, HasPrefix_append, ← List.append_assoc, Split_status_line c hc]
  simp

/-- Lines other than the status line leave the status and the exit flag alone. -/
theorem classifyLine_other (r : Running) (line : Str) (h : OtherLine line) :
    ∃ r1, classifyLine r line = some r1 ∧ r1.state.Status = r.state.Status ∧
      r1.exited = r.exited := by
  unfold classifyLine
  rw [h.1]
  simp only [Bool.false_eq_true, if_false]
  by_cases hctx : HasPrefix line MARATHON_CONTEXT_SET = true
  · have hlen := h.2 hctx
    rw [hctx]
    simp only [if_true]
    rcases hparts : Split line MARATHON_SEP with _ | ⟨p0, _ | ⟨p1, _ | ⟨p2, ps⟩⟩⟩
    · rw [hparts] at hlen; simp at hlen
    · rw [hparts] at hlen; simp at hlen
    · rw [hparts] at hlen; simp at hlen
    · exact ⟨_, rfl, rfl, rfl⟩
  · simp only [hctx, Bool.false_eq_true, if_false]
    exact ⟨_, rfl, rfl, rfl⟩

theorem classifyLines_other (r : Running) (lines : List Str) (h : ∀ l ∈ lines, OtherLine l) :
    ∃ r1, classifyLines r lines = some r1 ∧ r1.state.Status = r.state.Status ∧
      r1.exited = r.exited := by
  induction lines generalizing r with
  | nil => exact ⟨r, rfl, rfl, rfl⟩
  | cons l rest ih =>
    obtain ⟨r1, h1, hs1, he1⟩ := classifyLine_other r l (h l (List.mem_cons_self _ _))
    obtain ⟨r2, h2, hs2, he2⟩ := ih r1 (fun x hx => h x (List.mem_cons_of_mem _ hx))
    refine ⟨r2, ?_, hs2.trans hs1, he2.trans he1⟩
    rw [classifyLines, h1]
    exact h2

theorem classifyLines_append (r : Running) (xs ys : List Str) :
    classifyLines r (xs ++ ys)
      = match classifyLines r xs with
        | none => none
        | some r1 => classifyLines r1 ys := by
  induction xs generalizing r with
  | nil => simp [classifyLines]
  | cons x rest ih =>
    simp only [List.cons_append, classifyLines]
    cases classifyLine r x with
    | none => rfl
    | some r1 => exact ih r1

theorem classifyLines_with_status (r : Running) (before after : List Str) (c : Str)
    (hc : ¬ List.IsInfix MARATHON_SEP c) (hothers : ∀ l ∈ before ++ after, OtherLine l) :
    ∃ r1, classifyLines r (before ++ (MARATHON_STATUS_CODE ++ MARATHON_SEP ++ c) :: after)
        = some r1 ∧
      r1.state.Status = (if c = "0".toList then STATE_STATUS_SUCCESS else STATE_STATUS_ERROR) ∧
      r1.exited = true := by
  obtain ⟨r1, h1, _, _⟩ := classifyLines_other r before
    (fun l hl => hothers l (List.mem_append_left _ hl))
  obtain ⟨r2, h2, hs2, he2⟩ := classifyLines_other
    { r1 with
      state := { r1.state with
        Status := if c = "0".toList then STATE_STATUS_SUCCESS else STATE_STATUS_ERROR }
      exited := true } after (fun l hl => hothers l (List.mem_append_right _ hl))
  refine ⟨r2, ?_, hs2, he2⟩
  rw [classifyLines_append, h1]
  simp only [classifyLines]
  rw [classifyLine_status r1 c hc]
  exact h2

/-- Polls that bring no status line do not end the loop. -/
theorem pollLoop_skip (earlier rest : List Str) (r : Running)
    (h : ∀ p ∈ earlier, ∀ l ∈ Split p newline, OtherLine l) :
    ∃ r1, pollLoop (earlier ++ rest) r = pollLoop rest r1 := by
  induction earlier generalizing r with
  | nil => exact ⟨r, rfl⟩
  | cons p ps ih =>
    have hps : ∀ q ∈ ps, ∀ l ∈ Split q newline, OtherLine l :=
      fun q hq => h q (List.mem_cons_of_mem _ hq)
    rw [List.cons_append, pollLoop]
    by_cases hlen : p.length > 0
    · simp only [hlen, if_true]
      obtain ⟨r1, h1, _, he⟩ := classifyLines_other { r with exited := false }
        (Split p newline) (h p (List.mem_cons_self _ _))
      rw [h1]
      have he1 : r1.exited = false := he
      simp only [he1, Bool.false_eq_true, if_false]
      exact ih _ hps
    · simp only [hlen, if_false]
      exact ih _ hps

theorem pollLoop_status (chunk : Str) (later : List Str) (r : Running)
    (before after : List Str) (c : Str) (hc : ¬ List.IsInfix MARATHON_SEP c)
    (hchunk : Split chunk newline = before ++ (MARATHON_STATUS_CODE ++ MARATHON_SEP ++ c) :: after)
    (hothers : ∀ l ∈ before ++ after, OtherLine l) :
    ∃ r1, pollLoop (chunk :: later) r = .returned r1 ∧
      r1.state.Status = (if c = "0".toList then STATE_STATUS_SUCCESS else STATE_STATUS_ERROR) := by
  have hlen : chunk.length > 0 := by
    rcases chunk with _ | ⟨ch, cs⟩
    · exfalso
      have hsplit : Split ([] : Str) newline = [[]] := by decide
      rw [hsplit] at hchunk
      rcases before with _ | ⟨b, bs⟩
      · simp at hchunk
        have := congrArg List.length hchunk.1.1
        simp [MARATHON_STATUS_CODE] at this
      · simp at hchunk
    · simp
  obtain ⟨r1, h1, hs, he⟩ := classifyLines_with_status { r with exited := false }
    before after c hc hothers
  refine ⟨State.Update r1, ?_, ?_⟩
  · rw [pollLoop]
    simp only [hlen, if_true, hchunk, h1, he]
  · simpa [State.Update] using hs

/-- C5 (amended): when a poll of the output buffer brings the status line
`MARATHON_STATUS_CODE|MARATHON_SEP|c` as one of its lines, `c` not containing the
separator token (no decimal exit code does), and it is the only status line among
well-formed protocol lines, then `Step.Execute` returns, and the returned state has
status "success" if `c` is "0" and "error" otherwise. -/
theorem Execute_status_from_exit_code (env : Env) (s : Step) (runID dirPath : Str)
    (statuses : SyncMap) (context : SyncContext) (json c chunk : Str)
    (earlier later before after : List Str)
    (hjson : contextJSON env context runID = .ok json)
    (hrun : env.run dirPath json = earlier ++ chunk :: later)
    (hc : ¬ List.IsInfix MARATHON_SEP c)
    (hearlier : ∀ p ∈ earlier, ∀ l ∈ Split p newline, OtherLine l)
    (hchunk : Split chunk newline
      = before ++ (MARATHON_STATUS_CODE ++ MARATHON_SEP ++ c) :: after)
    (hothers : ∀ l ∈ before ++ after, OtherLine l) :
    ∃ res, s.Execute env runID dirPath statuses context = .returned res ∧
      res.err = none ∧
      res.state.Status
        = if c = "0".toList then STATE_STATUS_SUCCESS else STATE_STATUS_ERROR := by
  unfold Step.Execute
  simp only [hjson, hrun]
  obtain ⟨r1, h1⟩ := pollLoop_skip earlier (chunk :: later)
    { state := { Step := s.Name, RunID := runID, Status := STATE_STATUS_RUNNING, Output := [] },
      contextToAdd := [], exited := false,
      statuses := statuses.Set s.Name STATE_STATUS_RUNNING, emitted := [] } hearlier
  obtain ⟨r2, h2, hs⟩ := pollLoop_status chunk later r1 before after c hc hchunk hothers
  rw [h1, h2]
  exact ⟨_, rfl, rfl, hs⟩


/-! ## Descendant reset -/

theorem mapGet_some_mem_keys {V : Type} (m : GoMap V) (k : Str) (v : V)
    (h : mapGet m k = some v) : k ∈ m.map Prod.fst := by
  induction m with
  | nil => simp [mapGet] at h
  | cons e rest ih =>
    obtain ⟨k1, v1⟩ := e
    by_cases hk : k1 = k
    · exact List.mem_map.2 ⟨(k1, v1), List.mem_cons_self _ _, hk⟩
    · simp only [mapGet, hk, if_false] at h
      obtain ⟨e, he, hfst⟩ := List.mem_map.1 (ih h)
      exact List.mem_map.2 ⟨e, List.mem_cons_of_mem _ he, hfst⟩

theorem no_child_of_unindexed (w : Workflow) (a b : Str)
    (ha : a ∉ w.stepMap.map Prod.fst) : ¬ w.Child a b := by
  unfold Workflow.Child Workflow.stepAt
  cases hget : mapGet w.stepMap a with
  | none => simp [Step.children]
  | some s => exact absurd (mapGet_some_mem_keys _ _ _ hget) ha

/-- Among names closed under child edges and free of cycles, every name is
accessible for "is a child of". -/
theorem acc_of_no_cycle (w : Workflow) (D : Str → Prop)
    (hclosed : ∀ a b, D a → w.Child a b → D b)
    (hno : ∀ n, D n → ¬ Relation.TransGen w.Child n n) (n : Str) (hn : D n) :
    Acc (fun b a => w.Child a b) n := by
  let keys := w.stepMap.map Prod.fst
  let R : {x // x ∈ keys} → {x // x ∈ keys} → Prop :=
    fun b a => D a.1 ∧ Relation.TransGen w.Child a.1 b.1
  have htrans : IsTrans {x // x ∈ keys} R :=
    ⟨fun _ _ _ hab hbc => ⟨hbc.1, Relation.TransGen.trans hbc.2 hab.2⟩⟩
  have hirrefl : IsIrrefl {x // x ∈ keys} R := ⟨fun a h => hno a.1 h.1 h.2⟩
  have hwf : WellFounded R := Finite.wellFounded_of_trans_of_irrefl R
  have hkeys : ∀ x : {x // x ∈ keys}, D x.1 → Acc (fun b a => w.Child a b) x.1 := by
    intro x
    induction x using hwf.induction with
    | _ x ih =>
      intro hx
      refine Acc.intro _ (fun b hb => ?_)
      by_cases hbk : b ∈ keys
      · exact ih ⟨b, hbk⟩ ⟨hx, Relation.TransGen.single hb⟩ (hclosed _ _ hx hb)
      · exact Acc.intro _ (fun c hc => absurd hc (no_child_of_unindexed w b c hbk))
  by_cases hk : n ∈ keys
  · exact hkeys ⟨n, hk⟩ hn
  · exact Acc.intro _ (fun c hc => absurd hc (no_child_of_unindexed w n c hk))

theorem resetChildren_append (w : Workflow) (f : Step → SyncMap → Option SyncMap)
    (xs ys : List Str) (statuses : SyncMap) :
    resetChildren w f (xs ++ ys) statuses
      = match resetChildren w f xs statuses with
        | none => none
        | some statuses1 => resetChildren w f ys statuses1 := by
  induction xs generalizing statuses with
  | nil => simp [resetChildren]
  | cons x rest ih =>
    simp only [List.cons_append, resetChildren]
    cases f (w.stepAt x) (statuses.Set x STATE_STATUS_NOT_STARTED) with
    | none => rfl
    | some st => exact ih st

theorem setChildStatus_succ (w : Workflow) (fuel : Nat) (s : Step) (statuses : SyncMap) :
    w.setChildStatus (fuel + 1) s statuses
      = resetChildren w (w.setChildStatus fuel) s.children statuses := by
  rw [Workflow.setChildStatus]
  unfold Step.children
  rw [resetChildren_append, resetChildren_append]
  cases resetChildren w (w.setChildStatus fuel) s.Success statuses with
  | none => rfl
  | some st1 =>
    cases resetChildren w (w.setChildStatus fuel) s.Error st1 with
    | none => rfl
    | some st2 => rfl

theorem reach_cons_iff (w : Workflow) (c n : Str) :
    Relation.ReflTransGen w.Child c n
      ↔ n = c ∨ ∃ c1 ∈ (w.stepAt c).children, Relation.ReflTransGen w.Child c1 n := by
  constructor
  · intro h
    rcases Relation.ReflTransGen.cases_head h with heq | ⟨c1, hc1, hrest⟩
    · exact Or.inl heq.symm
    · exact Or.inr ⟨c1, hc1, hrest⟩
  · rintro (rfl | ⟨c1, hc1, hrest⟩)
    · exact Relation.ReflTransGen.refl
    · exact Relation.ReflTransGen.head hc1 hrest

theorem resetChildren_spec (w : Workflow) (cs : List Str) (hcs : ∀ c ∈ cs, ResetsFrom w c)
    (statuses : SyncMap) :
    ∃ fuel after,
      (∀ fuel1, fuel ≤ fuel1 →
        resetChildren w (w.setChildStatus fuel1) cs statuses = some after) ∧
      ResetFrom w cs statuses after := by
  induction cs generalizing statuses with
  | nil =>
    refine ⟨0, statuses, fun _ _ => rfl, fun n => ⟨?_, fun _ => rfl⟩⟩
    rintro ⟨c, hc, _⟩
    simp at hc
  | cons c rest ih =>
    obtain ⟨f1, st1, hrun1, hres1⟩ := hcs c (List.mem_cons_self _ _)
      (statuses.Set c STATE_STATUS_NOT_STARTED)
    obtain ⟨f2, st2, hrun2, hres2⟩ := ih (fun x hx => hcs x (List.mem_cons_of_mem _ hx)) st1
    refine ⟨max f1 f2, st2, fun fuel1 hfuel => ?_, fun n => ?_⟩
    · rw [resetChildren, hrun1 fuel1 (le_trans (le_max_left _ _) hfuel)]
      exact hrun2 fuel1 (le_trans (le_max_right _ _) hfuel)
    · have hfirst : Relation.ReflTransGen w.Child c n → st1.Get n = STATE_STATUS_NOT_STARTED := by
        intro hreach
        by_cases hsub : ∃ c1 ∈ (w.stepAt c).children, Relation.ReflTransGen w.Child c1 n
        · exact (hres1 n).1 hsub
        · rcases (reach_cons_iff w c n).1 hreach with heq | h
          · rw [(hres1 n).2 hsub, heq]
            exact SyncMap.Get_Set_self _ _ _
          · exact absurd h hsub
      have hkeep : ¬ Relation.ReflTransGen w.Child c n → st1.Get n = statuses.Get n := by
        intro hno
        have hsub : ¬ ∃ c1 ∈ (w.stepAt c).children, Relation.ReflTransGen w.Child c1 n :=
          fun h => hno ((reach_cons_iff w c n).2 (Or.inr h))
        have hne : n ≠ c := fun h => hno ((reach_cons_iff w c n).2 (Or.inl h))
        rw [(hres1 n).2 hsub]
        exact SyncMap.Get_Set_ne _ _ _ _ hne
      constructor
      · rintro ⟨c1, hc1, hreach⟩
        by_cases hrest : ∃ c2 ∈ rest, Relation.ReflTransGen w.Child c2 n
        · exact (hres2 n).1 hrest
        · rw [(hres2 n).2 hrest]
          rcases List.mem_cons.1 hc1 with rfl | hmem
          · exact hfirst hreach
          · exact absurd ⟨c1, hmem, hreach⟩ hrest
      · intro hno
        have hrest : ¬ ∃ c2 ∈ rest, Relation.ReflTransGen w.Child c2 n :=
          fun ⟨c2, hc2, h⟩ => hno ⟨c2, List.mem_cons_of_mem _ hc2, h⟩
        rw [(hres2 n).2 hrest]
        exact hkeep (fun h => hno ⟨c, List.mem_cons_self _ _, h⟩)

theorem setChildStatus_of_children (w : Workflow) (s : Step)
    (hcs : ∀ c ∈ s.children, ResetsFrom w c) (statuses : SyncMap) :
    ∃ fuel after,
      (∀ fuel1, fuel ≤ fuel1 → w.setChildStatus fuel1 s statuses = some after) ∧
      ResetFrom w s.children statuses after := by
  obtain ⟨f, after, hrun, hres⟩ := resetChildren_spec w s.children hcs statuses
  refine ⟨f + 1, after, fun fuel1 hfuel => ?_, hres⟩
  obtain ⟨k, rfl⟩ : ∃ k, fuel1 = k + 1 := ⟨fuel1 - 1, by omega⟩
  rw [setChildStatus_succ]
  exact hrun k (by omega)

theorem resetsFrom_of_acc (w : Workflow) (n : Str) (hacc : Acc (fun b a => w.Child a b) n) :
    ResetsFrom w n := by
  induction hacc with
  | intro a _ ih =>
    exact fun statuses => setChildStatus_of_children w (w.stepAt a) (fun c hc => ih c hc) statuses

/-- C9: in a workflow whose child edges contain no cycle, `setChildStatus(S)` ends
(for every bound on the recursion depth from some value on), after it every name
reachable from `S` through one or more child edges has status "not_started", and
every other name keeps its status, also the name of `S` itself when the step
indexed under that name has the children of `S`. -/
theorem setChildStatus_resets_descendants (w : Workflow) (hacyclic : w.Acyclic) (s : Step)
    (statuses : SyncMap) :
    ∃ fuel after,
      (∀ fuel1, fuel ≤ fuel1 → w.setChildStatus fuel1 s statuses = some after) ∧
      (∀ n, w.Descendant s n → after.Get n = STATE_STATUS_NOT_STARTED) ∧
      (∀ n, ¬ w.Descendant s n → after.Get n = statuses.Get n) ∧
      ((w.stepAt s.Name).children = s.children →
        after.Get s.Name = statuses.Get s.Name) := by
  obtain ⟨fuel, after, hrun, hres⟩ := setChildStatus_of_children w s
    (fun c _ => resetsFrom_of_acc w c (acc_of_no_cycle w (fun _ => True)
      (fun _ _ _ _ => trivial) (fun n _ => hacyclic n) c trivial)) statuses
  refine ⟨fuel, after, hrun, fun n hn => (hres n).1 hn, fun n hn => (hres n).2 hn, fun hs => ?_⟩
  refine (hres s.Name).2 ?_
  rintro ⟨c, hc, hreach⟩
  have hedge : w.Child s.Name c := by
    unfold Workflow.Child
    rw [hs]
    exact hc
  exact hacyclic s.Name (Relation.TransGen.head' hedge hreach)

theorem cycle_next (w : Workflow) (n : Str) (h : Relation.TransGen w.Child n n) :
    ∃ m, w.Child n m ∧ Relation.TransGen w.Child m m := by
  obtain ⟨m, hnm, hmn⟩ := Relation.TransGen.head'_iff.1 h
  exact ⟨m, hnm, Relation.TransGen.tail' hmn hnm⟩

theorem chain_of_cycle (w : Workflow) (k : Nat) (n : Str)
    (h : Relation.TransGen w.Child n n) : w.Chain k n := by
  induction k generalizing n with
  | zero => trivial
  | succ k ih =>
    obtain ⟨m, hnm, hm⟩ := cycle_next w n h
    exact ⟨m, hnm, ih m hm⟩

theorem chain_of_reach (w : Workflow) (c n : Str) (hreach : Relation.ReflTransGen w.Child c n)
    (hn : ∀ k, w.Chain k n) : ∀ k, w.Chain k c := by
  induction hreach using Relation.ReflTransGen.head_induction_on with
  | refl => exact hn
  | head hab _ ih =>
    intro k
    cases k with
    | zero => trivial
    | succ k => exact ⟨_, hab, ih k⟩

theorem resetChildren_none (w : Workflow) (f : Step → SyncMap → Option SyncMap)
    (cs : List Str) (c : Str) (hc : c ∈ cs) (hf : ∀ statuses, f (w.stepAt c) statuses = none)
    (statuses : SyncMap) : resetChildren w f cs statuses = none := by
  induction cs generalizing statuses with
  | nil => simp at hc
  | cons x rest ih =>
    rw [resetChildren]
    rcases List.mem_cons.1 hc with rfl | hmem
    · rw [hf]
    · cases f (w.stepAt x) (statuses.Set x STATE_STATUS_NOT_STARTED) with
      | none => rfl
      | some st => exact ih hmem st

theorem setChildStatus_none_of_chain (w : Workflow) (fuel : Nat) (s : Step)
    (h : ∃ c ∈ s.children, w.Chain fuel c) (statuses : SyncMap) :
    w.setChildStatus (fuel + 1) s statuses = none := by
  induction fuel generalizing s statuses with
  | zero =>
    obtain ⟨c, hc, _⟩ := h
    rw [setChildStatus_succ]
    exact resetChildren_none w _ _ c hc (fun _ => rfl) statuses
  | succ k ih =>
    obtain ⟨c, hc, hchain⟩ := h
    rw [setChildStatus_succ]
    exact resetChildren_none w _ _ c hc (fun st => ih (w.stepAt c) hchain st) statuses

/-- C10 (amended): the descendant reset `setChildStatus(S)` terminates exactly when
no name reachable from `S` through child edges is its own descendant; so it does in
every workflow whose child edges contain no cycle, and it does not for a step that
lists itself. -/
theorem setChildStatus_terminates_iff (w : Workflow) (s : Step) (statuses : SyncMap) :
    (∃ fuel, (w.setChildStatus fuel s statuses).isSome = true) ↔
      ¬ ∃ n, w.Descendant s n ∧ Relation.TransGen w.Child n n := by
  constructor
  · rintro ⟨fuel, hsome⟩ ⟨n, ⟨c, hc, hreach⟩, hcycle⟩
    have hchain : ∀ k, w.Chain k c :=
      chain_of_reach w c n hreach (fun k => chain_of_cycle w k n hcycle)
    cases fuel with
    | zero => simp [Workflow.setChildStatus] at hsome
    | succ k =>
      rw [setChildStatus_none_of_chain w k s ⟨c, hc, hchain k⟩] at hsome
      simp at hsome
  · intro hno
    have hacc : ∀ c ∈ s.children, ResetsFrom w c := by
      intro c hc
      refine resetsFrom_of_acc w c (acc_of_no_cycle w (w.Descendant s) ?_ ?_ c ?_)
      · rintro a b ⟨c1, hc1, hreach⟩ hab
        exact ⟨c1, hc1, Relation.ReflTransGen.tail hreach hab⟩
      · exact fun n hn hcycle => hno ⟨n, hn, hcycle⟩
      · exact ⟨c, hc, Relation.ReflTransGen.refl⟩
    obtain ⟨fuel, after, hrun, _⟩ := setChildStatus_of_children w s hacc statuses
    exact ⟨fuel, by rw [hrun fuel le_rfl]; rfl⟩

theorem retry_never_returns (fuel : Nat) (statuses : SyncMap) :
    retryWorkflow.setChildStatus fuel retryStep statuses = none := by
  induction fuel generalizing statuses with
  | zero => rfl
  | succ k ih =>
    rw [setChildStatus_succ]
    have hchildren : retryStep.children = ["a".toList] := by decide
    have hat : retryWorkflow.stepAt "a".toList = retryStep := by decide
    rw [hchildren, resetChildren, hat, ih]

/-- C10, as stated, fails: for a step that lists itself under Error the recursion of
`setChildStatus` reaches every depth, whatever the bound. -/
theorem setChildStatus_retry_diverges :
    ¬ ∃ fuel, (retryWorkflow.setChildStatus fuel retryStep ⟨[]⟩).isSome = true := by
  rintro ⟨fuel, h⟩
  rw [retry_never_returns] at h
  simp at h


/-- C2 at step `b` of test/main.go ending in error: `c` then `d` are dispatched. -/
theorem autoTrigger_children_witness :
    bFailed.Status = STATE_STATUS_ERROR ∧
    foobarIndexed.autoTrigger "run".toList stepB bFailed
      = ((stepB.Error ++ stepB.Always).map
          (fun name => Dispatch.mk "run".toList name []), none) :=
  ⟨by decide, (autoTrigger_children foobarIndexed "run".toList stepB bFailed).2.1 (by decide)⟩

/-- C1 at step `b` of test/main.go once `a` has succeeded, `b` exiting with code 1. -/
theorem Trigger_proceeds_iff_parents_satisfied_witness :
    mapGet foobarIndexed.stepMap "b".toList = some stepBIndexed ∧
    ((foobarIndexed.Trigger (envOf [statusEcho "1".toList]) 3 "run".toList "b".toList []
          aSucceeded ⟨none⟩
        = foobarIndexed.afterExecute 3 "run".toList stepBIndexed
            (stepBIndexed.Execute (envOf [statusEcho "1".toList]) "run".toList
              (MARATHON_DIRECTORY ++ "/".toList ++ stepBIndexed.Name)
              (aSucceeded.Set "b".toList STATE_STATUS_NOT_STARTED)
              (setAll "run".toList [] ⟨none⟩)) ↔
      ∀ parent required, (parent, required) ∈ stepBIndexed.Parents →
        Satisfied aSucceeded parent required) ∧
    ((∀ parent required, (parent, required) ∈ stepBIndexed.Parents →
        Satisfied aSucceeded parent required) →
      (stepBIndexed.Execute (envOf [statusEcho "1".toList]) "run".toList
          (MARATHON_DIRECTORY ++ "/".toList ++ stepBIndexed.Name)
          (aSucceeded.Set "b".toList STATE_STATUS_NOT_STARTED) (setAll "run".toList [] ⟨none⟩)
          = .diverges →
        foobarIndexed.Trigger (envOf [statusEcho "1".toList]) 3 "run".toList "b".toList []
          aSucceeded ⟨none⟩ = .diverges) ∧
      (∀ r statuses2,
        stepBIndexed.Execute (envOf [statusEcho "1".toList]) "run".toList
          (MARATHON_DIRECTORY ++ "/".toList ++ stepBIndexed.Name)
          (aSucceeded.Set "b".toList STATE_STATUS_NOT_STARTED) (setAll "run".toList [] ⟨none⟩)
          = .returned r →
        r.err = none →
        foobarIndexed.setChildStatus 3 stepBIndexed
          (r.statuses.Set stepBIndexed.Name r.state.Status) = some statuses2 →
        r.emitted ≠ [] ∧
        foobarIndexed.Trigger (envOf [statusEcho "1".toList]) 3 "run".toList "b".toList []
          aSucceeded ⟨none⟩
          = .returned { err := none, statuses := statuses2, context := r.context,
                        emitted := r.emitted,
                        dispatched := (foobarIndexed.autoTrigger "run".toList stepBIndexed
                          r.state).1 })) ∧
    ((¬ ∀ parent required, (parent, required) ∈ stepBIndexed.Parents →
        Satisfied aSucceeded parent required) →
      foobarIndexed.Trigger (envOf [statusEcho "1".toList]) 3 "run".toList "b".toList []
          aSucceeded ⟨none⟩
        = .returned { err := none, statuses := aSucceeded, context := ⟨none⟩,
                      emitted := [], dispatched := [] })) ∧
    (∃ res, foobarIndexed.Trigger (envOf [statusEcho "1".toList]) 3 "run".toList "b".toList []
        aSucceeded ⟨none⟩ = .returned res ∧
      res.err = none ∧ res.statuses.Get "b".toList = STATE_STATUS_ERROR ∧
      res.emitted = [("b".toList, "run".toList, STATE_STATUS_ERROR, "\n".toList)] ∧
      res.dispatched = [Dispatch.mk "run".toList "c".toList [],
                        Dispatch.mk "run".toList "d".toList []]) :=
  ⟨by decide,
   Trigger_proceeds_iff_parents_satisfied (envOf [statusEcho "1".toList]) 3 foobarIndexed
     "run".toList "b".toList [] aSucceeded ⟨none⟩ stepBIndexed (by decide),
   ⟨_, rfl, by decide, by decide, by decide, by decide⟩⟩

/-- C3 (amended) at the workflow of test/main.go, for step `b`. -/
theorem Setup_parent_entries_witness :
    (foobar.Steps.map Step.Name).Nodup ∧ stepB ∈ foobar.Steps ∧
    ((∀ x, x ∈ foobar.Steps →
      mapGet ((foobar.Setup (fun _ => none) (fun _ _ _ => none) ⟨[]⟩).1.stepAt
          stepB.Name).Parents x.Name
        = if Contains x.Success stepB.Name then some TRIGGER_STATUS_SUCCESS
          else if Contains x.Error stepB.Name then some TRIGGER_STATUS_ERROR
          else if Contains x.Always stepB.Name then some TRIGGER_STATUS_ALWAYS
          else mapGet stepB.Parents x.Name) ∧
    (∀ n, n ∉ foobar.Steps.map Step.Name →
      mapGet ((foobar.Setup (fun _ => none) (fun _ _ _ => none) ⟨[]⟩).1.stepAt
          stepB.Name).Parents n
        = mapGet stepB.Parents n)) :=
  ⟨by decide, by decide,
   Setup_parent_entries (fun _ => none) (fun _ _ _ => none) foobar ⟨[]⟩ (by decide) stepB
     (by decide)⟩

/-- C3, as stated, fails: a step listing a child under Success and under Error is
recorded as its "success" parent only, and a parent declared by a step stays in its
parent map although that parent lists it nowhere. -/
theorem Setup_parents_counterexample :
    ("y".toList ∈ stepBoth.Error ∧
      mapGet ((twoLists.Setup (fun _ => none) (fun _ _ _ => none) ⟨[]⟩).1.stepAt
          "y".toList).Parents "x".toList ≠ some TRIGGER_STATUS_ERROR) ∧
    ((∀ x ∈ declaredParent.Steps, "y".toList ∉ x.children) ∧
      mapGet ((declaredParent.Setup (fun _ => none) (fun _ _ _ => none) ⟨[]⟩).1.stepAt
          "y".toList).Parents "x".toList ≠ none) := by
  decide

/-- C5 (amended) at a step that writes `hello` and exits with code 1. -/
theorem Execute_status_from_exit_code_witness :
    contextJSON (envOf ["hello\n".toList, statusEcho "1".toList]) ⟨none⟩ "run".toList
      = .ok "\x7b\x7d".toList ∧
    (envOf ["hello\n".toList, statusEcho "1".toList]).run dirA "\x7b\x7d".toList
      = ["hello\n".toList] ++ statusEcho "1".toList :: [] ∧
    ¬ List.IsInfix MARATHON_SEP "1".toList ∧
    (∀ p ∈ ["hello\n".toList], ∀ l ∈ Split p newline, OtherLine l) ∧
    Split (statusEcho "1".toList) newline
      = [] ++ (MARATHON_STATUS_CODE ++ MARATHON_SEP ++ "1".toList) :: [[]] ∧
    (∀ l ∈ [] ++ [[]], OtherLine l) ∧
    ∃ res, stepA.Execute (envOf ["hello\n".toList, statusEcho "1".toList]) "run".toList dirA
        ⟨[]⟩ ⟨none⟩ = .returned res ∧
      res.err = none ∧
      res.state.Status
        = if "1".toList = "0".toList then STATE_STATUS_SUCCESS else STATE_STATUS_ERROR :=
  ⟨rfl, rfl, by decide, by decide, by decide, by decide,
   Execute_status_from_exit_code (envOf ["hello\n".toList, statusEcho "1".toList]) stepA
     "run".toList dirA ⟨[]⟩ ⟨none⟩ "\x7b\x7d".toList "1".toList (statusEcho "1".toList)
     ["hello\n".toList] [] [] [[]] rfl rfl (by decide) (by decide) (by decide) (by decide)⟩

/-- C5, as stated, fails: an output that contains the status line as its only status
line need not end the loop with the status of `c`. With `c = 0|MARATHON_SEP|1` the
status is "success" although `c` is not "0" (the field read is the text up to the
next separator); a status line that follows text without a newline, or that is cut
between two polls, starts no piece of a snapshot and the loop never ends; a
context-set line without fields before it ends the loop in a panic. -/
theorem Execute_status_line_counterexample :
    ("0|MARATHON_SEP|1".toList ≠ "0".toList ∧
      ∃ res, stepC.Execute (envOf [statusEcho "0|MARATHON_SEP|1".toList]) "run".toList dirA
          ⟨[]⟩ ⟨none⟩ = .returned res ∧
        res.state.Status = STATE_STATUS_SUCCESS) ∧
    stepC.Execute (envOf ["done".toList ++ statusEcho "0".toList]) "run".toList dirA
        ⟨[]⟩ ⟨none⟩ = .diverges ∧
    stepC.Execute (envOf ["MARATHON_STATUS".toList, "_CODE|MARATHON_SEP|0\n".toList])
        "run".toList dirA ⟨[]⟩ ⟨none⟩ = .diverges ∧
    stepC.Execute (envOf ["MARATHON_CONTEXT_SET\n".toList ++ statusEcho "0".toList])
        "run".toList dirA ⟨[]⟩ ⟨none⟩ = .panicked := by
  refine ⟨⟨by decide, _, rfl, by decide⟩, by decide, by decide, by decide⟩

theorem Split_writeLines (lines : List Str) (tail : Str)
    (h : ∀ l ∈ lines, ∀ ch ∈ l, ch ≠ '\n') :
    Split (writeLines lines ++ tail) newline = lines ++ Split tail newline := by
  induction lines with
  | nil => rfl
  | cons l rest ih =>
    have hl := h l (List.mem_cons_self _ _)
    have hrest := ih (fun x hx => h x (List.mem_cons_of_mem _ hx))
    unfold Split at hrest ⊢
    have hshape : writeLines (l :: rest) ++ tail
        = l ++ (('\n' :: []) ++ (writeLines rest ++ tail)) := by
      simp [writeLines, newline]
    rw [hshape]
    have hstep := splitGo_piece '\n' [] l (writeLines rest ++ tail) [] hl
    have hnl : newline = '\n' :: [] := rfl
    rw [hnl] at hrest ⊢
    rw [hstep, hrest]
    simp

theorem classifyLines_plain (r : Running) (lines : List Str) (h : ∀ l ∈ lines, PlainLine l) :
    classifyLines r lines
      = some { r with state := { r.state with Output := r.state.Output ++ writeLines lines } } := by
  induction lines generalizing r with
  | nil => simp [classifyLines, writeLines]
  | cons l rest ih =>
    have hl := h l (List.mem_cons_self _ _)
    have hone : classifyLine r l
        = some { r with state := { r.state with Output := r.state.Output ++ (l ++ newline) } } := by
      unfold classifyLine
      simp [hl.1, hl.2.1]
    rw [classifyLines, hone]
    simp only
    rw [ih _ (fun x hx => h x (List.mem_cons_of_mem _ hx))]
    simp [writeLines]

/-- Plain lines and the status line for exit code 0, read in one piece: `Execute`
returns "success" and the accumulated output is the lines written followed by one
more newline. -/
theorem Execute_plain_lines_one_poll (env : Env) (s : Step) (runID dirPath : Str)
    (statuses : SyncMap) (context : SyncContext) (json : Str) (lines : List Str)
    (hjson : contextJSON env context runID = .ok json)
    (hrun : env.run dirPath json = [writeLines lines ++ statusEcho "0".toList])
    (hplain : ∀ l ∈ lines, PlainLine l) :
    ∃ res, s.Execute env runID dirPath statuses context = .returned res ∧
      res.state.Status = STATE_STATUS_SUCCESS ∧
      res.state.Output = writeLines lines ++ newline := by
  have hsplit : Split (writeLines lines ++ statusEcho "0".toList) newline
      = lines ++ [MARATHON_STATUS_CODE ++ MARATHON_SEP ++ "0".toList, []] := by
    rw [Split_writeLines lines _ (fun l hl => (hplain l hl).2.2)]
    have h0 : Split (statusEcho "0".toList) newline
        = [MARATHON_STATUS_CODE ++ MARATHON_SEP ++ "0".toList, []] := by decide
    rw [h0]
  have hlen : (writeLines lines ++ statusEcho "0".toList).length > 0 := by
    simp [statusEcho, newline]
  have hstatus := fun r => classifyLine_status r "0".toList (by decide)
  have hempty : ∀ r : Running, classifyLine r []
      = some { r with state := { r.state with Output := r.state.Output ++ ([] ++ newline) } } := by
    intro r
    rfl
  unfold Step.Execute
  simp only [hjson, hrun, pollLoop, hlen, if_true, hsplit, classifyLines_append,
    classifyLines_plain _ lines hplain, classifyLines, hstatus, hempty]
  exact ⟨_, rfl, rfl, rfl⟩

theorem HasPrefix_SetContext (k v rest : Str) :
    HasPrefix (SetContext k v ++ rest) MARATHON_STATUS_CODE = false ∧
    HasPrefix (SetContext k v ++ rest) MARATHON_CONTEXT_SET = true := by
  constructor
  · simp [SetContext, HasPrefix, MARATHON_STATUS_CODE, MARATHON_CONTEXT_SET, List.isPrefixOf]
  · unfold SetContext
    rw [List.append_assoc, List.append_assoc, List.append_assoc]
    exact HasPrefix_append _ _

/-- With `SetContext(k, v)` as the last thing a step prints, the whole output read in
one piece never lets `Execute` return, whatever the key, the value and the exit
code (all without newline). -/
theorem Execute_SetContext_last_one_poll (env : Env) (s : Step) (runID dirPath : Str)
    (statuses : SyncMap) (context : SyncContext) (json k v c : Str)
    (hjson : contextJSON env context runID = .ok json)
    (hrun : env.run dirPath json = [SetContext k v ++ statusEcho c])
    (hk : ∀ ch ∈ k, ch ≠ '\n') (hv : ∀ ch ∈ v, ch ≠ '\n') (hc : ∀ ch ∈ c, ch ≠ '\n') :
    ∀ res, s.Execute env runID dirPath statuses context ≠ .returned res := by
  have happ : ∀ a b : Str, (∀ ch ∈ a, ch ≠ '\n') → (∀ ch ∈ b, ch ≠ '\n') →
      ∀ ch ∈ a ++ b, ch ≠ '\n' :=
    fun a b ha hb ch hch => (List.mem_append.1 hch).elim (ha ch) (hb ch)
  have h1 : ∀ ch ∈ MARATHON_CONTEXT_SET, ch ≠ '\n' := by decide
  have h2 : ∀ ch ∈ MARATHON_SEP, ch ≠ '\n' := by decide
  have h3 : ∀ ch ∈ MARATHON_STATUS_CODE, ch ≠ '\n' := by decide
  have hline : ∀ ch ∈ SetContext k v ++ (MARATHON_STATUS_CODE ++ MARATHON_SEP ++ c),
      ch ≠ '\n' :=
    happ _ _ (happ _ _ (happ _ _ (happ _ _ (happ _ _ h1 h2) hk) h2) hv)
      (happ _ _ (happ _ _ h3 h2) hc)
  have hsplit : Split (SetContext k v ++ statusEcho c) newline
      = [SetContext k v ++ (MARATHON_STATUS_CODE ++ MARATHON_SEP ++ c), []] := by
    have h1 := Split_writeLines [SetContext k v ++ (MARATHON_STATUS_CODE ++ MARATHON_SEP ++ c)] []
      (fun l hl => by
        rw [List.mem_singleton.1 hl]
        exact hline)
    have hshape : writeLines [SetContext k v ++ (MARATHON_STATUS_CODE ++ MARATHON_SEP ++ c)] ++ []
        = SetContext k v ++ statusEcho c := by
      simp [writeLines, statusEcho]
    rw [hshape] at h1
    rw [h1]
    rfl
  have hlen : (SetContext k v ++ statusEcho c).length > 0 := by
    simp [statusEcho, newline]
  obtain ⟨hp1, hp2⟩ := HasPrefix_SetContext k v (MARATHON_STATUS_CODE ++ MARATHON_SEP ++ c)
  intro res
  unfold Step.Execute
  simp only [hjson, hrun, pollLoop, hlen, if_true, hsplit, classifyLines]
  unfold classifyLine
  simp only [hp1, hp2, Bool.false_eq_true, if_false, if_true]
  rcases Split (SetContext k v ++ (MARATHON_STATUS_CODE ++ MARATHON_SEP ++ c)) MARATHON_SEP
    with _ | ⟨p0, _ | ⟨p1, _ | ⟨p2, ps⟩⟩⟩ <;> simp [HasPrefix, MARATHON_STATUS_CODE,
      MARATHON_CONTEXT_SET, List.isPrefixOf]

/-- C4 fails on the code: when the output of a step whose last statement is
`SetContext("foo", "bar")` is read in one piece, the helper's text and the status
line form one line, which is staged as `foo = barMARATHON_STATUS_CODE`; no status
line is seen and `Execute` never returns. Only when a poll falls exactly between the
two writes does it return "success" with `foo = bar`. -/
theorem Execute_SetContext_last_never_returns :
    stepA.Execute (envOf [setContextLast]) "run".toList dirA ⟨[]⟩ ⟨none⟩ = .diverges ∧
    (∃ r, classifyLines
        { state := { Step := "a".toList, Status := STATE_STATUS_RUNNING, Output := [],
                     RunID := "run".toList },
          contextToAdd := [], exited := false, statuses := ⟨[]⟩, emitted := [] }
        (Split setContextLast newline) = some r ∧
      r.exited = false ∧
      r.contextToAdd = [("foo".toList, "barMARATHON_STATUS_CODE".toList)]) ∧
    (∃ res, stepA.Execute (envOf [SetContext "foo".toList "bar".toList,
          statusEcho "0".toList]) "run".toList dirA ⟨[]⟩ ⟨none⟩ = .returned res ∧
      res.state.Status = STATE_STATUS_SUCCESS ∧
      res.context.Get "run".toList "foo".toList = "bar".toList) := by
  refine ⟨by decide, ⟨_, rfl, by decide, by decide⟩, ⟨_, rfl, by decide, by decide⟩⟩

/-- C6 fails on the code: for a step that writes nothing and exits with code 0, and
for one that writes the single line `ab`, the output read in one piece gives status
"success" but an accumulated output with one more newline than the lines written. -/
theorem Execute_output_has_extra_newline :
    (∃ res, stepC.Execute (envOf [statusEcho "0".toList]) "run".toList dirA ⟨[]⟩ ⟨none⟩
        = .returned res ∧
      res.state.Status = STATE_STATUS_SUCCESS ∧ res.state.Output = "\n".toList) ∧
    (∃ res, stepC.Execute (envOf [oneLine]) "run".toList dirA ⟨[]⟩ ⟨none⟩
        = .returned res ∧
      res.state.Status = STATE_STATUS_SUCCESS ∧ res.state.Output = "ab\n\n".toList) := by
  refine ⟨⟨_, rfl, by decide, by decide⟩, ⟨_, rfl, by decide, by decide⟩⟩

/-- C8 fails on the code: the same output text cut in two ways gives two different
accumulated outputs, and a cut inside the status line keeps `Execute` from ever
returning. -/
theorem Execute_depends_on_chunking :
    ["a".toList, "b\n".toList ++ statusEcho "0".toList].flatten = [oneLine].flatten ∧
    (∃ res, stepC.Execute (envOf [oneLine]) "run".toList dirA ⟨[]⟩ ⟨none⟩ = .returned res ∧
      res.state.Output = "ab\n\n".toList) ∧
    (∃ res, stepC.Execute (envOf ["a".toList, "b\n".toList ++ statusEcho "0".toList])
        "run".toList dirA ⟨[]⟩ ⟨none⟩ = .returned res ∧
      res.state.Output = "a\nb\n\n".toList) ∧
    ["ab\nMARATHON_STATUS".toList, "_CODE|MARATHON_SEP|0\n".toList].flatten = [oneLine].flatten ∧
    stepC.Execute (envOf ["ab\nMARATHON_STATUS".toList, "_CODE|MARATHON_SEP|0\n".toList])
        "run".toList dirA ⟨[]⟩ ⟨none⟩ = .diverges := by
  refine ⟨by decide, ⟨_, rfl, by decide⟩, ⟨_, rfl, by decide⟩, by decide, by decide⟩

theorem acyclic_of_rank (w : Workflow) (rank : Str → Nat)
    (hrank : ∀ a b, w.Child a b → rank b < rank a) : w.Acyclic := by
  have hlt : ∀ a b, Relation.TransGen w.Child a b → rank b < rank a := by
    intro a b h
    induction h with
    | single h1 => exact hrank _ _ h1
    | tail _ h2 ih => exact lt_trans (hrank _ _ h2) ih
  exact fun n h => lt_irrefl _ (hlt n n h)

theorem foobarIndexed_acyclic : foobarIndexed.Acyclic := by
  refine acyclic_of_rank foobarIndexed foobarRank (fun a b hab => ?_)
  unfold Workflow.Child Workflow.stepAt at hab
  have hmap : foobarIndexed.stepMap
      = [("a".toList, stepA), ("b".toList, stepBIndexed),
         ("c".toList, { stepC with Parents := [("b".toList, "error".toList)] }),
         ("d".toList, { stepD with Parents := [("b".toList, "always".toList)] })] := by
    decide
  rw [hmap] at hab
  unfold foobarRank
  by_cases ha : "a".toList = a
  · subst ha
    have hb : b = "b".toList := by simpa [mapGet, Step.children, stepA] using hab
    subst hb
    decide
  · by_cases hb : "b".toList = a
    · subst hb
      have hcd : b = "c".toList ∨ b = "d".toList := by
        simpa [mapGet, Step.children, stepBIndexed, stepB] using hab
      rcases hcd with rfl | rfl <;> decide
    · exfalso
      by_cases hc : "c".toList = a
      · simp only [mapGet, ha, hb, hc, if_false, if_true] at hab
        simp [Step.children, stepC] at hab
      · by_cases hd : "d".toList = a
        · simp only [mapGet, ha, hb, hc, hd, if_false, if_true] at hab
          simp [Step.children, stepD] at hab
        · simp only [mapGet, ha, hb, hc, hd, if_false] at hab
          simp [Step.children] at hab

/-- C9 at step `a` of test/main.go, over the statuses of an earlier run. -/
theorem setChildStatus_resets_descendants_witness :
    foobarIndexed.Acyclic ∧
    ∃ fuel after,
      (∀ fuel1, fuel ≤ fuel1 → foobarIndexed.setChildStatus fuel1 stepA priorRun = some after) ∧
      (∀ n, foobarIndexed.Descendant stepA n → after.Get n = STATE_STATUS_NOT_STARTED) ∧
      (∀ n, ¬ foobarIndexed.Descendant stepA n → after.Get n = priorRun.Get n) ∧
      ((foobarIndexed.stepAt stepA.Name).children = stepA.children →
        after.Get stepA.Name = priorRun.Get stepA.Name) :=
  ⟨foobarIndexed_acyclic,
   setChildStatus_resets_descendants foobarIndexed foobarIndexed_acyclic stepA priorRun⟩

end Marathon
